import Mathlib

/-!
Verification of the text-analysis utilities of `funcs.py`: the
sentence tokenizer `txt_to_string_list` and the three frequency
analyzers `phrase_frequency`, `next_word_frequency` and
`word_frequency_given_word`, embedded shallowly.  File reading is the
external I/O boundary, so the tokenizer here takes the text itself.
The analyzers contain no `raise`, so their `Except`-typed embeddings
always return `Except.ok`; the `Except` type records that the claims
about failure are about these functions.
-/

namespace TextAnalysis

/-- Word characters of the tokenizing regex `\w+|[^\w\s]`: `\w` is a
letter, a digit or an underscore. -/
def isWordChar (c : Char) : Bool :=
  c.isAlphanum || c == '_'

/-- Whitespace characters of the tokenizing regex (`\s`). -/
def isSpace (c : Char) : Bool :=
  c == ' ' || c == '\t' || c == '\n' || c == '\r' || c == '\x0b' || c == '\x0c'

/-- Emit the pending word run (held in reverse) as one token, or nothing
when no run is pending. -/
def flushRun (acc : List Char) : List String :=
  match acc with
  | [] => []
  | _ => [String.mk acc.reverse]

/-- The scan of `re.findall(r"\w+|[^\w\s]", text)`: maximal runs of word
characters become one token, any other non-whitespace character is its
own one-character token, whitespace is discarded.  `acc` holds the
current word run in reverse. -/
def tokenizeGo : List Char → List Char → List String
  | [], acc => flushRun acc
  | c :: cs, acc =>
    if isWordChar c then tokenizeGo cs (c :: acc)
    else if isSpace c then flushRun acc ++ tokenizeGo cs []
    else flushRun acc ++ (String.mk [c] :: tokenizeGo cs [])

/-- Tokens of the text: `txt_to_string_list` lowercases the whole text
(`text.lower()`) and then applies the regex scan. -/
def tokenize (text : String) : List String :=
  tokenizeGo (text.data.map Char.toLower) []

/-- The sentence-splitting loop of `txt_to_string_list`: `cur` is the
open (last) sentence being appended to; every token is appended to it,
and a delimiter token closes it and opens a new empty sentence. -/
def splitGo (delim : List String) : List String → List String → List (List String)
  | [], cur => [cur]
  | t :: ts, cur =>
    if t ∈ delim then (cur ++ [t]) :: splitGo delim ts []
    else splitGo delim ts (cur ++ [t])

/-- Embedding of `txt_to_string_list` (the file's content already read:
file I/O is the external collaborator): lowercase, tokenize, split at
delimiter tokens. -/
def txt_to_string_list (text : String) (delim : List String) : List (List String) :=
  splitGo delim (tokenize text) []

/-- Embedding of the dictionary update `if k in d: d[k] += 1 else: d[k] = 1`
on an insertion-ordered association list, as a Python dict preserves
insertion order. -/
def bump (m : List (String × Nat)) (k : String) : List (String × Nat) :=
  match m with
  | [] => [(k, 1)]
  | (k₀, v) :: rest => if k₀ = k then (k₀, v + 1) :: rest else (k₀, v) :: bump rest k

/-- The order of `sorted(d.items(), key=lambda x: x[1], reverse=True)`:
descending count. -/
def byCountDesc (a b : String × Nat) : Prop := b.2 ≤ a.2

instance : DecidableRel byCountDesc := fun a b => Nat.decLe b.2 a.2

instance : IsTotal (String × Nat) byCountDesc := ⟨fun a b => Nat.le_total b.2 a.2⟩

instance : IsTrans (String × Nat) byCountDesc := ⟨fun _ _ _ h₁ h₂ => Nat.le_trans h₂ h₁⟩

/-- Embedding of `sorted(items, key=lambda x: x[1], reverse=True)`:
Python's sort is stable, and this insertion sort places an earlier
element before any later element of equal count, so the two agree. -/
def sortByCountDesc (l : List (String × Nat)) : List (String × Nat) :=
  l.insertionSort byCountDesc

/-- Python list slicing `s[a:b]`: a negative bound counts from the end,
out-of-range bounds clamp. -/
def pySlice (s : List String) (a b : Int) : List String :=
  (s.take (if b < 0 then max ((s.length : Int) + b) 0 else min b (s.length : Int)).toNat).drop
    (if a < 0 then max ((s.length : Int) + a) 0 else min a (s.length : Int)).toNat

/-- Python `" ".join(l)`. -/
def joinSpace (l : List String) : String := String.intercalate " " l

/-- The windows one sentence contributes in `phrase_frequency`: the
sentence is skipped when shorter than `phrase_len`, else the joined
slice `sentence[i : i + phrase_len]` is emitted for each
`i in range(len(sentence) - phrase_len + 1)` (an empty range when the
bound is not positive, exactly as in Python). -/
def sentenceWindows (s : List String) (phrase_len : Int) : List String :=
  if (s.length : Int) < phrase_len then []
  else (List.range ((s.length : Int) - phrase_len + 1).toNat).map
    fun (i : Nat) => joinSpace (pySlice s (i : Int) ((i : Int) + phrase_len))

/-- Embedding of `phrase_frequency`.  The Python body contains no
`raise`, so the result is always `Except.ok`: every window of every
sentence is counted and the table is sorted by descending count. -/
def phrase_frequency (sentences : List (List String)) (phrase_len : Int) :
    Except String (List (String × Nat)) :=
  Except.ok (sortByCountDesc
    (sentences.foldl (fun m s => (sentenceWindows s phrase_len).foldl bump m) []))

/-- The successor tokens collected by the scan
`for i in range(len(s) - 1): if s[i] == word: use s[i + 1]`: the second
components of the adjacent pairs whose first component is `word`. -/
def nextWords (s : List String) (word : String) : List String :=
  ((s.zip s.tail).filter fun p => p.1 == word).map fun p => p.2

/-- Embedding of `next_word_frequency` (its `total_count` variable is
dead code and omitted); no `raise`, so always `Except.ok`. -/
def next_word_frequency (sentences : List (List String)) (word : String) :
    Except String (List (String × Nat)) :=
  Except.ok (sortByCountDesc
    (sentences.foldl (fun m s => (nextWords s word).foldl bump m) []))

/-- Embedding of `word_frequency_given_word`: a sentence containing
`word` contributes every one of its tokens; no `raise`, so always
`Except.ok`. -/
def word_frequency_given_word (sentences : List (List String)) (word : String) :
    Except String (List (String × Nat)) :=
  Except.ok (sortByCountDesc
    (sentences.foldl (fun m s => if word ∈ s then s.foldl bump m else m) []))

/-- Sum of the counts of a frequency table. -/
def sumCounts (m : List (String × Nat)) : Nat := (m.map fun e => e.2).sum

/-- Total count a table records for key `k` (summed over the entries
that carry `k`, so it is invariant under permutation). -/
def lookupCount (m : List (String × Nat)) (k : String) : Nat :=
  ((m.filter fun e => e.1 == k).map fun e => e.2).sum

/-- All tokens of a token-list list, in order. -/
def sentencesTokens (r : List (List String)) : List String := r.foldr (· ++ ·) []

/-- Characters of a token sequence, concatenated in order. -/
def tokensChars (ts : List String) : List Char := ts.foldr (fun t r => t.data ++ r) []

/-- A word character is not regex whitespace. -/
lemma isWordChar_not_isSpace {c : Char} (h : isWordChar c = true) : isSpace c = false := by
  by_contra hs
  rw [Bool.not_eq_false] at hs
  simp only [isSpace, Bool.or_eq_true, beq_iff_eq] at hs
  rcases hs with ((((h₁ | h₁) | h₁) | h₁) | h₁) | h₁ <;> subst h₁ <;>
    exact absurd h (by decide)

lemma tokensChars_cons (t : String) (ts : List String) :
    tokensChars (t :: ts) = t.data ++ tokensChars ts := rfl

lemma tokensChars_append (a b : List String) :
    tokensChars (a ++ b) = tokensChars a ++ tokensChars b := by
  induction a with
  | nil => rfl
  | cons t a ih => simp only [List.cons_append, tokensChars_cons, ih, List.append_assoc]

lemma tokensChars_flushRun (acc : List Char) : tokensChars (flushRun acc) = acc.reverse := by
  cases acc with
  | nil => rfl
  | cons c cs => simp [flushRun, tokensChars_cons, tokensChars]

/-- Concatenating the tokens of the scan recovers exactly the
non-whitespace characters, with the pending run in front. -/
lemma tokensChars_tokenizeGo (cs : List Char) :
    ∀ acc, tokensChars (tokenizeGo cs acc) =
      acc.reverse ++ cs.filter (fun c => !(isSpace c)) := by
  induction cs with
  | nil => intro acc; simp [tokenizeGo, tokensChars_flushRun]
  | cons c cs ih =>
    intro acc
    simp only [tokenizeGo]
    by_cases hw : isWordChar c
    · rw [if_pos hw, ih]
      have hs := isWordChar_not_isSpace hw
      simp [List.filter_cons, hs]
    · rw [if_neg hw]
      by_cases hsp : isSpace c
      · rw [if_pos hsp, tokensChars_append, tokensChars_flushRun, ih]
        simp [List.filter_cons, hsp]
      · rw [if_neg hsp, tokensChars_append, tokensChars_flushRun]
        simp [tokensChars_cons, ih, List.filter_cons, hsp]

lemma sentencesTokens_cons (a : List String) (r : List (List String)) :
    sentencesTokens (a :: r) = a ++ sentencesTokens r := rfl

/-- The splitter never returns an empty sentence list. -/
lemma splitGo_ne_nil (delim : List String) (ts : List String) :
    ∀ cur, splitGo delim ts cur ≠ [] := by
  induction ts with
  | nil => intro cur; simp [splitGo]
  | cons t ts ih =>
    intro cur
    by_cases h : t ∈ delim
    · simp [splitGo, h]
    · simp only [splitGo, if_neg h]
      exact ih (cur ++ [t])

/-- Splitting only regroups the tokens: flattening gives them back
behind the tokens already in the open sentence. -/
lemma sentencesTokens_splitGo (delim : List String) (ts : List String) :
    ∀ cur, sentencesTokens (splitGo delim ts cur) = cur ++ ts := by
  induction ts with
  | nil => intro cur; simp [splitGo, sentencesTokens]
  | cons t ts ih =>
    intro cur
    by_cases h : t ∈ delim
    · simp only [splitGo, if_pos h, sentencesTokens_cons, ih []]
      simp
    · simp only [splitGo, if_neg h, ih (cur ++ [t])]
      simp

/-- Every sentence the splitter has closed ends with a delimiter token. -/
lemma splitGo_dropLast_ends (delim : List String) (ts : List String) :
    ∀ cur s, s ∈ (splitGo delim ts cur).dropLast →
      ∃ t, s.getLast? = some t ∧ t ∈ delim := by
  induction ts with
  | nil => intro cur s hs; simp [splitGo] at hs
  | cons t ts ih =>
    intro cur s hs
    by_cases h : t ∈ delim
    · simp only [splitGo, if_pos h] at hs
      rcases hrest : splitGo delim ts [] with _ | ⟨b, rs⟩
      · exact absurd hrest (splitGo_ne_nil delim ts [])
      · rw [hrest, List.dropLast_cons₂] at hs
        rcases List.mem_cons.mp hs with h₁ | h₁
        · subst h₁
          exact ⟨t, List.getLast?_concat cur, h⟩
        · exact ih [] s (by rw [hrest]; exact h₁)
    · simp only [splitGo, if_neg h] at hs
      exact ih (cur ++ [t]) s hs

/-- When the splitter's last sentence is empty: exactly when it was
handed no tokens and an empty open sentence, or the last token was a
delimiter. -/
lemma splitGo_last_empty (delim : List String) (ts : List String) :
    ∀ cur, ((splitGo delim ts cur).getLast? = some [] ↔
      (ts = [] ∧ cur = []) ∨ ∃ t, ts.getLast? = some t ∧ t ∈ delim) := by
  induction ts with
  | nil => intro cur; simp [splitGo]
  | cons t ts ih =>
    intro cur
    by_cases h : t ∈ delim
    · simp only [splitGo, if_pos h]
      rcases hrest : splitGo delim ts [] with _ | ⟨b, rs⟩
      · exact absurd hrest (splitGo_ne_nil delim ts [])
      · rw [List.getLast?_cons_cons, ← hrest, ih []]
        cases ts with
        | nil => simp [h]
        | cons x xs => simp [List.getLast?_cons_cons]
    · simp only [splitGo, if_neg h]
      rw [ih (cur ++ [t])]
      cases ts with
      | nil => simp [h]
      | cons x xs => simp [List.getLast?_cons_cons]

lemma sumCounts_nil : sumCounts [] = 0 := rfl

lemma lookupCount_nil (t : String) : lookupCount [] t = 0 := rfl

/-- One dictionary update adds exactly one to the total count. -/
lemma sumCounts_bump (m : List (String × Nat)) (k : String) :
    sumCounts (bump m k) = sumCounts m + 1 := by
  induction m with
  | nil => simp [bump, sumCounts]
  | cons e m ih =>
    obtain ⟨k₀, v⟩ := e
    by_cases h : k₀ = k
    · simp [bump, h, sumCounts]
      omega
    · simp [bump, h, sumCounts] at *
      omega

lemma lookupCount_cons (e : String × Nat) (m : List (String × Nat)) (t : String) :
    lookupCount (e :: m) t = (if e.1 = t then e.2 else 0) + lookupCount m t := by
  by_cases h : e.1 = t <;> simp [lookupCount, List.filter_cons, h]

/-- One dictionary update adds exactly one to the updated key's count
and nothing to any other key's. -/
lemma lookupCount_bump (m : List (String × Nat)) (k t : String) :
    lookupCount (bump m k) t = lookupCount m t + (if k = t then 1 else 0) := by
  induction m with
  | nil =>
    by_cases h : k = t <;> simp [bump, lookupCount_cons, lookupCount_nil, h]
  | cons e m ih =>
    obtain ⟨k₀, v⟩ := e
    by_cases h : k₀ = k
    · subst h
      have hb : bump ((k₀, v) :: m) k₀ = (k₀, v + 1) :: m := by simp [bump]
      rw [hb, lookupCount_cons, lookupCount_cons]
      by_cases ht : k₀ = t <;> simp [ht] <;> omega
    · simp only [bump, if_neg h, lookupCount_cons, ih]
      omega

/-- Counting a batch of items adds the batch's size to the total. -/
lemma foldl_bump_sumCounts (items : List String) :
    ∀ m, sumCounts (items.foldl bump m) = sumCounts m + items.length := by
  induction items with
  | nil => intro m; simp
  | cons k items ih =>
    intro m
    simp only [List.foldl_cons, ih, sumCounts_bump, List.length_cons]
    omega

/-- Counting a batch of items adds each key's number of occurrences in
the batch to that key's count. -/
lemma foldl_bump_lookupCount (items : List String) (t : String) :
    ∀ m, lookupCount (items.foldl bump m) t = lookupCount m t + items.count t := by
  induction items with
  | nil => intro m; simp
  | cons k items ih =>
    intro m
    simp only [List.foldl_cons, ih, lookupCount_bump, List.count_cons, beq_iff_eq]
    by_cases h : k = t <;> simp [h] <;> omega

/-- Sorting the table does not change the total count. -/
lemma sumCounts_sortByCountDesc (l : List (String × Nat)) :
    sumCounts (sortByCountDesc l) = sumCounts l := by
  simp only [sumCounts, sortByCountDesc]
  exact List.Perm.sum_eq (List.Perm.map _ (List.perm_insertionSort byCountDesc l))

/-- Sorting the table does not change any key's count. -/
lemma lookupCount_sortByCountDesc (l : List (String × Nat)) (t : String) :
    lookupCount (sortByCountDesc l) t = lookupCount l t := by
  simp only [lookupCount, sortByCountDesc]
  exact List.Perm.sum_eq
    (List.Perm.map _ (List.Perm.filter _ (List.perm_insertionSort byCountDesc l)))

/-- Number of windows a sentence contributes, for a positive window
width: `max 0 (len - phrase_len + 1)`, and in particular `0` for a
sentence shorter than `phrase_len`. -/
lemma length_sentenceWindows (s : List String) (n : Int) :
    (sentenceWindows s n).length = ((s.length : Int) - n + 1).toNat := by
  unfold sentenceWindows
  by_cases h : (s.length : Int) < n
  · rw [if_pos h]
    simp only [List.length_nil]
    omega
  · rw [if_neg h]
    rw [List.length_map, List.length_range]

/-- The empty Python slice `s[i:i]` for a nonnegative index. -/
lemma pySlice_self (s : List String) (i : Int) (hi : 0 ≤ i) : pySlice s i i = [] := by
  unfold pySlice
  rw [if_neg (not_lt.mpr hi)]
  refine List.drop_eq_nil_of_le ?_
  rw [List.length_take]
  exact min_le_left _ _

lemma map_eq_replicate {α β : Type} (l : List α) (f : α → β) (b : β) (h : ∀ a, f a = b) :
    l.map f = List.replicate l.length b := by
  induction l with
  | nil => rfl
  | cons x l ih => simp [h, ih, List.replicate_succ]

/-- With `phrase_len = 0` every window is the empty slice, joined to the
empty phrase: one window per start position `0..len`. -/
lemma sentenceWindows_zero (s : List String) :
    sentenceWindows s 0 = List.replicate (s.length + 1) "" := by
  unfold sentenceWindows
  rw [if_neg (by omega)]
  have h₁ : ((s.length : Int) - 0 + 1).toNat = s.length + 1 := by omega
  rw [h₁]
  have h₂ : ∀ i : Nat, joinSpace (pySlice s i ((i : Int) + 0)) = "" := by
    intro i
    rw [add_zero, pySlice_self s i (Int.natCast_nonneg i)]
    rfl
  have h₃ := map_eq_replicate (List.range (s.length + 1))
    (fun i : Nat => joinSpace (pySlice s i ((i : Int) + 0))) "" h₂
  rw [List.length_range] at h₃
  exact h₃

/-- Repeatedly counting the same key only increments its entry. -/
lemma foldl_bump_replicate (k : String) (n : Nat) :
    ∀ v, (List.replicate n k).foldl bump [(k, v)] = [(k, v + n)] := by
  induction n with
  | zero => intro v; simp
  | succ n ih =>
    intro v
    rw [List.replicate_succ, List.foldl_cons]
    have hb : bump [(k, v)] k = [(k, v + 1)] := by simp [bump]
    rw [hb, ih (v + 1)]
    simp only [List.cons.injEq, Prod.mk.injEq, and_true, true_and]
    omega

lemma foldl_bump_replicate_succ (k : String) (n : Nat) :
    (List.replicate (n + 1) k).foldl bump [] = [(k, n + 1)] := by
  rw [List.replicate_succ, List.foldl_cons]
  have hb : bump [] k = [(k, 1)] := rfl
  rw [hb, foldl_bump_replicate k n 1]
  simp only [List.cons.injEq, Prod.mk.injEq, and_true, true_and]
  omega

/-- Number of successor matches one sentence contributes. -/
lemma length_nextWords (s : List String) (w : String) :
    (nextWords s w).length = (s.zip s.tail).countP fun p => p.1 == w := by
  simp [nextWords, List.countP_eq_length_filter]

/-- A sentence with no match leaves the table untouched; so does a whole
corpus of such sentences. -/
lemma foldl_nextWords_nil (ss : List (List String)) (w : String)
    (h : ∀ s ∈ ss, nextWords s w = []) :
    ∀ m, ss.foldl (fun m s => (nextWords s w).foldl bump m) m = m := by
  induction ss with
  | nil => intro m; rfl
  | cons s ss ih =>
    intro m
    rw [List.foldl_cons, h s (List.mem_cons_self s ss)]
    exact ih (fun s hs => h s (List.mem_cons_of_mem _ hs)) m

/-- Accumulating per-sentence batches sums their sizes. -/
lemma foldl_items_sumCounts (f : List String → List String) (ss : List (List String)) :
    ∀ m, sumCounts (ss.foldl (fun m s => (f s).foldl bump m) m) =
      sumCounts m + (ss.map fun s => (f s).length).sum := by
  induction ss with
  | nil => intro m; simp
  | cons s ss ih =>
    intro m
    simp only [List.foldl_cons, ih, foldl_bump_sumCounts, List.map_cons, List.sum_cons]
    omega

/-- The co-occurrence fold adds the length of every sentence containing
the target word to the total count. -/
lemma foldl_wfgw_sumCounts (w : String) (ss : List (List String)) :
    ∀ m, sumCounts (ss.foldl (fun m s => if w ∈ s then s.foldl bump m else m) m) =
      sumCounts m + (ss.map fun s => if w ∈ s then s.length else 0).sum := by
  induction ss with
  | nil => intro m; simp
  | cons s ss ih =>
    intro m
    rw [List.foldl_cons]
    by_cases h : w ∈ s
    · simp only [if_pos h, ih, foldl_bump_sumCounts, List.map_cons, List.sum_cons]
      omega
    · simp only [if_neg h, ih, List.map_cons, List.sum_cons]
      omega

/-- The co-occurrence fold adds, for every key, its occurrences in the
sentences containing the target word. -/
lemma foldl_wfgw_lookupCount (w t : String) (ss : List (List String)) :
    ∀ m, lookupCount (ss.foldl (fun m s => if w ∈ s then s.foldl bump m else m) m) t =
      lookupCount m t + (ss.map fun s => if w ∈ s then s.count t else 0).sum := by
  induction ss with
  | nil => intro m; simp
  | cons s ss ih =>
    intro m
    rw [List.foldl_cons]
    by_cases h : w ∈ s
    · simp only [if_pos h, ih, foldl_bump_lookupCount, List.map_cons, List.sum_cons]
      omega
    · simp only [if_neg h, ih, List.map_cons, List.sum_cons]
      omega

/-- A corpus with no sentence containing the target word leaves the
table untouched. -/
lemma foldl_wfgw_absent (w : String) (ss : List (List String))
    (h : ∀ s ∈ ss, w ∉ s) :
    ∀ m, ss.foldl (fun m s => if w ∈ s then s.foldl bump m else m) m = m := by
  induction ss with
  | nil => intro m; rfl
  | cons s ss ih =>
    intro m
    rw [List.foldl_cons, if_neg (h s (List.mem_cons_self s ss))]
    exact ih (fun s hs => h s (List.mem_cons_of_mem _ hs)) m

/-- With `phrase_len = 0` the whole scan only grows the empty phrase's
count, by `len + 1` per sentence. -/
lemma foldl_windows_zero (ss : List (List String)) :
    ∀ v, ss.foldl (fun m s => (sentenceWindows s 0).foldl bump m) [("", v)] =
      [("", v + (ss.map fun s => s.length + 1).sum)] := by
  induction ss with
  | nil => intro v; simp
  | cons s ss ih =>
    intro v
    rw [List.foldl_cons, sentenceWindows_zero, foldl_bump_replicate, ih]
    simp only [List.map_cons, List.sum_cons, List.cons.injEq, Prod.mk.injEq, true_and, and_true]
    omega

/-- C1, corrected, counterexample: with `phrase_len = 0` the call does
not fail — there is no `InvalidArgument` path at all — it scans and
returns a normal table (the empty phrase, counted once per window). -/
theorem phrase_len_zero_returns_ok :
    phrase_frequency [["a"]] 0 = Except.ok [("", 2)] ∧
    ∀ e, phrase_frequency [["a"]] 0 ≠ Except.error e := by
  refine ⟨rfl, fun e he => ?_⟩
  simp only [phrase_frequency] at he
  exact Except.noConfusion he

/-- C1 (amended): `phrase_frequency` performs no validation of
`phrase_len`: for `phrase_len ≤ 0` it returns normally (`Except.ok`),
and with `phrase_len = 0` on a nonempty corpus the scan produces one
empty-phrase window per position, giving the single pair
`("", Σ (len + 1))`. -/
theorem phrase_frequency_no_validation (ss : List (List String)) (n : Int) (hn : n ≤ 0) :
    (phrase_frequency ss n).isOk = true ∧
    (ss ≠ [] → phrase_frequency ss 0 =
      Except.ok [("", (ss.map fun s => s.length + 1).sum)]) := by
  refine ⟨rfl, fun hne => ?_⟩
  cases ss with
  | nil => exact absurd rfl hne
  | cons s rest =>
    simp only [phrase_frequency, Except.ok.injEq]
    rw [List.foldl_cons, sentenceWindows_zero, foldl_bump_replicate_succ,
      foldl_windows_zero rest (s.length + 1)]
    simp only [sortByCountDesc, List.insertionSort, List.orderedInsert,
      List.map_cons, List.sum_cons, List.cons.injEq, Prod.mk.injEq, true_and, and_true]

/-- C1 witness: at a concrete corpus and a concrete negative
`phrase_len`. -/
theorem phrase_frequency_no_validation_check :
    (phrase_frequency [["a", "b"]] (-1)).isOk = true ∧
    ([["a", "b"]] ≠ [] → phrase_frequency [["a", "b"]] 0 =
      Except.ok [("", ([["a", "b"]].map fun s => s.length + 1).sum)]) :=
  phrase_frequency_no_validation [["a", "b"]] (-1) (by decide)

/-- C2, corrected, counterexample: the example text does not tokenize to
exactly the two listed sentences — the final delimiter opens a trailing
empty sentence which is part of the returned list. -/
theorem example_text_not_two_sentences :
    txt_to_string_list "The cat sat. The cat ran!" [".", "!"] ≠
      [["the", "cat", "sat", "."], ["the", "cat", "ran", "!"]] := by decide

/-- C2 (amended): the example text produces the two listed sentences
followed by one trailing empty sentence (the sentence opened after the
final delimiter and never closed). -/
theorem example_text_sentences :
    txt_to_string_list "The cat sat. The cat ran!" [".", "!"] =
      [["the", "cat", "sat", "."], ["the", "cat", "ran", "!"], []] := by decide

/-- C3, corrected, counterexample: the tokenizer lowercases, so for the
text `"A"` the concatenated tokens are `"a"`, not the original
non-whitespace characters `"A"`. -/
theorem tokens_differ_from_original_on_uppercase :
    tokensChars (sentencesTokens (txt_to_string_list "A" [".", "?", "!", ";"])) ≠
      "A".data.filter (fun c => !(isSpace c)) := by decide

/-- C3 (amended): for every input text, concatenating all tokens of all
sentences, in order with nothing inserted, reconstructs exactly the
sequence of non-whitespace characters of the lowercased original text. -/
theorem tokens_reconstruct_lowered_text (text : String) (delim : List String) :
    tokensChars (sentencesTokens (txt_to_string_list text delim)) =
      (text.data.map Char.toLower).filter (fun c => !(isSpace c)) := by
  unfold txt_to_string_list
  rw [sentencesTokens_splitGo delim (tokenize text) []]
  unfold tokenize
  rw [List.nil_append, tokensChars_tokenizeGo]
  simp

/-- C4: tokenizing the empty text yields exactly one sentence, the empty
one (the open sentence that is never closed). -/
theorem empty_text_one_empty_sentence (delim : List String) :
    txt_to_string_list "" delim = [[]] := rfl

/-- C5: every sentence of the tokenizer's output except possibly the
last ends with a token of the delimiter set (tokens are already
lowercase-folded, so the final token is its own folded form). -/
theorem closed_sentences_end_with_delimiter (text : String) (delim : List String)
    (s : List String) (hs : s ∈ (txt_to_string_list text delim).dropLast) :
    ∃ t, s.getLast? = some t ∧ t ∈ delim :=
  splitGo_dropLast_ends delim (tokenize text) [] s hs

/-- C5 witness: the closed sentence of `"a. b"` ends with `"."`. -/
theorem closed_sentences_end_with_delimiter_check :
    ∃ t, (["a", "."] : List String).getLast? = some t ∧ t ∈ (["."] : List String) :=
  closed_sentences_end_with_delimiter "a. b" ["."] ["a", "."] (by decide)

/-- C6: for `phrase_len ≥ 1` the counts of `phrase_frequency` sum to the
number of valid windows, `Σ max 0 (len - phrase_len + 1)` over the
sentences (`Int.toNat` is exactly `max 0`); sentences shorter than
`phrase_len` contribute the zero of that clamp. -/
theorem phrase_frequency_total_count (ss : List (List String)) (n : Int) (hn : 1 ≤ n)
    (r : List (String × Nat)) (hr : phrase_frequency ss n = Except.ok r) :
    sumCounts r = (ss.map fun s => ((s.length : Int) - n + 1).toNat).sum := by
  simp only [phrase_frequency, Except.ok.injEq] at hr
  subst hr
  rw [sumCounts_sortByCountDesc, foldl_items_sumCounts (fun s => sentenceWindows s n) ss []]
  have hlen : ∀ s : List String,
      (sentenceWindows s n).length = ((s.length : Int) - n + 1).toNat :=
    fun s => length_sentenceWindows s n
  simp only [sumCounts_nil, Nat.zero_add, hlen]

/-- C6 witness: one sentence of two tokens, window width two. -/
theorem phrase_frequency_total_count_check :
    sumCounts [("a b", 1)] =
      ([["a", "b"]].map fun s => ((s.length : Int) - 2 + 1).toNat).sum :=
  phrase_frequency_total_count [["a", "b"]] 2 (by decide) [("a b", 1)] rfl

/-- C7: the counts of `next_word_frequency` sum to the number of
adjacent in-sentence pairs whose first token is the target word (pairs
never cross a sentence boundary, as each sentence is zipped with its own
tail), and when there is no such pair the result is the empty table, not
an error. -/
theorem next_word_frequency_pair_count (ss : List (List String)) (w : String)
    (r : List (String × Nat)) (hr : next_word_frequency ss w = Except.ok r) :
    sumCounts r = (ss.map fun s => (s.zip s.tail).countP fun p => p.1 == w).sum ∧
    ((ss.map fun s => (s.zip s.tail).countP fun p => p.1 == w).sum = 0 → r = []) := by
  simp only [next_word_frequency, Except.ok.injEq] at hr
  subst hr
  constructor
  · rw [sumCounts_sortByCountDesc, foldl_items_sumCounts (fun s => nextWords s w) ss []]
    simp only [sumCounts_nil, Nat.zero_add, length_nextWords]
  · intro h0
    have hall : ∀ s ∈ ss, nextWords s w = [] := by
      intro s hs
      have hz : ((s.zip s.tail).countP fun p => p.1 == w) = 0 :=
        (List.sum_eq_zero_iff.mp h0) _ (List.mem_map_of_mem _ hs)
      exact List.length_eq_zero.mp (by rw [length_nextWords]; exact hz)
    rw [foldl_nextWords_nil ss w hall []]
    rfl

/-- C7 witness: the corpus `[["a", "b"]]` with target `"a"`. -/
theorem next_word_frequency_pair_count_check :
    sumCounts [("b", 1)] =
      ([["a", "b"]].map fun s => (s.zip s.tail).countP fun p => p.1 == "a").sum ∧
    (([["a", "b"]].map fun s => (s.zip s.tail).countP fun p => p.1 == "a").sum = 0 →
      [("b", 1)] = ([] : List (String × Nat))) :=
  next_word_frequency_pair_count [["a", "b"]] "a" [("b", 1)] rfl

/-- C8: `word_frequency_given_word` counts, for every key, exactly its
occurrences (one per occurrence, the target word included) in the
sentences containing the target word; the counts sum to the total
length of those sentences — so a single containing sentence of length
`L` sums to `L` — and a corpus without the target word gives the empty
table. -/
theorem word_frequency_given_word_occurrences (ss : List (List String)) (w t : String)
    (r : List (String × Nat)) (hr : word_frequency_given_word ss w = Except.ok r) :
    lookupCount r t = (ss.map fun s => if w ∈ s then s.count t else 0).sum ∧
    sumCounts r = (ss.map fun s => if w ∈ s then s.length else 0).sum ∧
    ((∀ s ∈ ss, w ∉ s) → r = []) := by
  simp only [word_frequency_given_word, Except.ok.injEq] at hr
  subst hr
  refine ⟨?_, ?_, ?_⟩
  · rw [lookupCount_sortByCountDesc, foldl_wfgw_lookupCount w t ss []]
    simp only [lookupCount_nil, Nat.zero_add]
  · rw [sumCounts_sortByCountDesc, foldl_wfgw_sumCounts w ss []]
    simp only [sumCounts_nil, Nat.zero_add]
  · intro habs
    rw [foldl_wfgw_absent w ss habs []]
    rfl

/-- C8 witness: the corpus `[["a", "b"]]` with target `"a"`, key `"b"`. -/
theorem word_frequency_given_word_occurrences_check :
    lookupCount [("a", 1), ("b", 1)] "b" =
      ([["a", "b"]].map fun s => if "a" ∈ s then s.count "b" else 0).sum ∧
    sumCounts [("a", 1), ("b", 1)] =
      ([["a", "b"]].map fun s => if "a" ∈ s then s.length else 0).sum ∧
    ((∀ s ∈ [["a", "b"]], "a" ∉ s) → [("a", 1), ("b", 1)] = ([] : List (String × Nat))) :=
  word_frequency_given_word_occurrences [["a", "b"]] "a" "b" [("a", 1), ("b", 1)] rfl

/-- C9: each analyzer returns its table sorted by descending count, and
the embeddings are pure functions, so repeated calls on identical inputs
are definitionally equal — including the tie order, which the stable
sort fixes to first-seen order. -/
theorem frequency_tables_sorted_deterministic (ss : List (List String)) (n : Int)
    (w v : String) :
    (∀ r, phrase_frequency ss n = Except.ok r → List.Sorted byCountDesc r) ∧
    (∀ r, next_word_frequency ss w = Except.ok r → List.Sorted byCountDesc r) ∧
    (∀ r, word_frequency_given_word ss v = Except.ok r → List.Sorted byCountDesc r) ∧
    phrase_frequency ss n = phrase_frequency ss n ∧
    next_word_frequency ss w = next_word_frequency ss w ∧
    word_frequency_given_word ss v = word_frequency_given_word ss v := by
  refine ⟨?_, ?_, ?_, rfl, rfl, rfl⟩ <;>
    · intro r hr
      simp only [phrase_frequency, next_word_frequency, word_frequency_given_word,
        Except.ok.injEq] at hr
      subst hr
      exact List.sorted_insertionSort byCountDesc _

/-- C10, corrected, counterexample: for the empty text the last sentence
is empty although the text has no final token at all, so "empty exactly
when the final token matches a delimiter" fails as stated. -/
theorem last_sentence_empty_without_final_token :
    (txt_to_string_list "" [".", "?", "!", ";"]).getLast? = some [] ∧
    (tokenize "").getLast? = none := by decide

/-- C10 (amended): the tokenizer's output always contains at least one
sentence, every sentence but the last is nonempty, and the last sentence
is empty exactly when the text has no tokens or its final token matches
a delimiter (so a text ending in a delimiter yields a trailing empty
sentence, included in the result). -/
theorem corpus_shape (text : String) (delim : List String) :
    txt_to_string_list text delim ≠ [] ∧
    (∀ s ∈ (txt_to_string_list text delim).dropLast, s ≠ []) ∧
    ((txt_to_string_list text delim).getLast? = some [] ↔
      tokenize text = [] ∨ ∃ t, (tokenize text).getLast? = some t ∧ t ∈ delim) := by
  refine ⟨splitGo_ne_nil delim (tokenize text) [], ?_, ?_⟩
  · intro s hs hnil
    obtain ⟨t, ht, -⟩ := splitGo_dropLast_ends delim (tokenize text) [] s hs
    subst hnil
    simp at ht
  · have h := splitGo_last_empty delim (tokenize text) []
    simpa [txt_to_string_list] using h

end TextAnalysis
